import Mathlib

/-!
Shallow embedding of the ECS GUI test program (src/main.rs): an
entity/component simulation (`SysA`) over `Pos`/`Selected` components,
plus the scene-graph facade `ElementCreator` with its `add_square`
creation protocol and its stack-based render traversal
(`draw_to_canvas`).  Machine integers (`u16` identity counter, `u32`
coordinates) are modelled as `Nat` with explicit `% 2^w` wraparound at
the operations where overflow matters; operations that panic in Rust
(out-of-bounds `Vec` indexing, debug-mode integer underflow) are
modelled as `Option` with `none` for the panic.
-/

/-- Modulus of the `u16` identity counter `latest_id`. -/
def W16 : Nat := 65536

/-- Modulus of the `u32` coordinates. -/
def U32 : Nat := 4294967296

/-- `Position(u32, u32)` from the source. -/
structure Position where
  x : Nat
  y : Nat
deriving DecidableEq, Repr

/-- `Pos(u32, u32, u32, u32)`: the bounding-box component
`(x_min, y_min, x_max, y_max)`. -/
@[ext]
structure Pos where
  xMin : Nat
  yMin : Nat
  xMax : Nat
  yMax : Nat
deriving DecidableEq, Repr

/-- `MousePosition(u32, u32)` shared resource. -/
structure MousePosition where
  x : Nat
  y : Nat
deriving DecidableEq, Repr

/-- `DrawCommand`: one variant, `Select(Identity)` (identities are `u16`
values, modelled as `Nat`). -/
inductive DrawCommand where
  | Select (id : Nat)
deriving DecidableEq, Repr

/-- One ECS entity as created by `add_square`: it carries the three
components `Identity`, `Pos` and `Selected` that `SysA`'s join iterates
over. -/
structure Entity where
  id : Nat
  pos : Pos
  selected : Bool
deriving DecidableEq, Repr

/-- The hit test from `SysA::run`:
`mouse.0 >= pos.0 && mouse.1 >= pos.1 && mouse.0 <= pos.2 && mouse.1 <= pos.3`. -/
def hitTest (m : MousePosition) (p : Pos) : Bool :=
  decide (p.xMin ≤ m.x ∧ p.yMin ≤ m.y ∧ m.x ≤ p.xMax ∧ m.y ≤ p.yMax)

/-- The box mutation from `SysA::run` when the entity is selected:
`pos.0 += 5; pos.1 += 5; pos.2 += 5; pos.3 += 5` (u32 addition, so each
coordinate wraps modulo `2^32`). -/
def grow5 (p : Pos) : Pos :=
  ⟨(p.xMin + 5) % U32, (p.yMin + 5) % U32, (p.xMax + 5) % U32, (p.yMax + 5) % U32⟩

/-- The per-entity body of `SysA::run`'s join loop: recompute the
`Selected` flag from the pre-frame box, and if selected move the box. -/
def updateEntity (m : MousePosition) (e : Entity) : Entity :=
  let s := hitTest m e.pos
  { e with selected := s, pos := if s then grow5 e.pos else e.pos }

/-- The component state after one `SysA::run`: every joined entity is
processed independently, in iteration order. -/
def runSysEntities (m : MousePosition) (es : List Entity) : List Entity :=
  es.map (updateEntity m)

/-- The draw commands pushed by one `SysA::run`, in iteration order: one
`Select(id)` for each entity whose recomputed flag is true. -/
def runSysCommands (m : MousePosition) (es : List Entity) : List DrawCommand :=
  (es.filter fun e => hitTest m e.pos).map fun e => DrawCommand.Select e.id

/-- `UiElement`: a text leaf or a square container with child identities. -/
inductive UiElement where
  | Text (p : Position) (s : String)
  | Square (p1 p2 : Position) (children : List Nat)
deriving DecidableEq, Repr

/-- `UiElement::add_child`: pushes the child identity onto a square's
child list; on a `Text` leaf it does nothing. -/
def UiElement.add_child : UiElement → Nat → UiElement
  | UiElement.Text p s, _ => UiElement.Text p s
  | UiElement.Square p1 p2 cs, c => UiElement.Square p1 p2 (cs ++ [c])

/-- Child identities of an element (`Text` leaves have none). -/
def childIds : UiElement → List Nat
  | UiElement.Text _ _ => []
  | UiElement.Square _ _ cs => cs

/-- Default element used with `getD`; every index at which it is used is
proved in range, so the default is never observed. -/
def dElem : UiElement := UiElement.Text ⟨0, 0⟩ ""

/-- `Vec::insert(n, x)`: insert `x` at index `n`, shifting later
elements right.  Only used at indices `n ≤ length` (Rust panics
otherwise; `add_square` guards this explicitly). -/
def insertAt (n : Nat) (x : α) (l : List α) : List α :=
  match n, l with
  | 0, l => x :: l
  | _ + 1, [] => []
  | n + 1, a :: l => a :: insertAt n x l

/-- The `ElementCreator` facade state: the `u16` counter `latest_id`,
the ECS world content (entities plus the `MousePosition` and
`Vec<DrawCommand>` resources), and the scene-graph vector `ui`. -/
@[ext]
structure ElementCreator where
  latest_id : Nat
  entities : List Entity
  mouse : MousePosition
  queue : List DrawCommand
  ui : List UiElement
deriving DecidableEq, Repr

/-- `ElementCreator::new()`: counter 0, empty world, `MousePosition(0,0)`,
empty draw-command queue, and the root square `(0,0)-(400,400)` as the
single scene element. -/
def ElementCreator.new : ElementCreator :=
  { latest_id := 0
    entities := []
    mouse := ⟨0, 0⟩
    queue := []
    ui := [UiElement.Square ⟨0, 0⟩ ⟨400, 400⟩ []] }

/-- `ElementCreator::add_square((p1, p2), child_of)`:
`id = latest_id`; `bootstrap_new_entity` increments the `u16` counter
and attaches `Identity(latest_id - 1)` (u16 wraparound on both ops),
`Selected(false)` and `Pos`; then `ui[child_of].add_child(id)` (panics
if `child_of` is out of range) and `ui.insert(id, Square(p1, p2, []))`
(panics if `id > ui.len()`); returns `Identity(id)`.  Panics are
modelled as `none`. -/
def add_square (s : ElementCreator) (p1 p2 : Position) (child_of : Nat) :
    Option (ElementCreator × Nat) :=
  if child_of < s.ui.length then
    let id := s.latest_id
    let latest' := (s.latest_id + 1) % W16
    let ent : Entity := ⟨(latest' + (W16 - 1)) % W16, ⟨p1.x, p1.y, p2.x, p2.y⟩, false⟩
    let ui1 := s.ui.set child_of ((s.ui.getD child_of dElem).add_child id)
    if id ≤ ui1.length then
      some ({ s with
                latest_id := latest'
                entities := s.entities ++ [ent]
                ui := insertAt id (UiElement.Square p1 p2 []) ui1 },
            id)
    else none
  else none

/-- The traversal loop of `draw_to_canvas`: an explicit work stack
seeded with `[0]`; pop the top, visit it, push its children in list
order (so the last child is popped first).  The stack top is the list
head, hence pushing the children reverses them.  `none` models either
an out-of-bounds `self.ui[current]` panic or exhausted fuel; the loop
itself has no fuel in Rust, and termination is proved separately. -/
def renderLoop (ui : List UiElement) : Nat → List Nat → Option (List Nat)
  | 0, _ => none
  | _ + 1, [] => some []
  | fuel + 1, i :: rest =>
    (ui[i]?).bind fun el =>
      (renderLoop ui fuel ((childIds el).reverse ++ rest)).map (i :: ·)

/-- `u32` subtraction as it behaves in a debug build: panics (`none`)
when the subtrahend is larger. -/
def subU32 (a b : Nat) : Option Nat :=
  if b ≤ a then some (a - b) else none

/-- The width/height computation of the `draw_rect` call in
`draw_to_canvas`: `(p2.0 - p1.0, p2.1 - p1.1)` with `u32` subtraction. -/
def rectSize (p1 p2 : Position) : Option (Nat × Nat) :=
  match subU32 p2.x p1.x, subU32 p2.y p1.y with
  | some w, some h => some (w, h)
  | _, _ => none

/-- One `add_square` call of the creation protocol. -/
structure SquareCall where
  p1 : Position
  p2 : Position
  child_of : Nat
deriving DecidableEq, Repr

/-- Run a sequence of `add_square` calls from a given state. -/
def buildFrom (s : ElementCreator) : List SquareCall → Option ElementCreator
  | [] => some s
  | c :: cs => (add_square s c.p1 c.p2 c.child_of).bind fun r => buildFrom r.1 cs

/-- Run the creation protocol from `ElementCreator::new()`. -/
def buildScene (calls : List SquareCall) : Option ElementCreator :=
  buildFrom ElementCreator.new calls

/-- The three `add_square` calls issued by `main` (the second parent is
`this_id`, the identity returned by the first call, which is 0). -/
def mainCalls : List SquareCall :=
  [⟨⟨0, 0⟩, ⟨50, 50⟩, 0⟩, ⟨⟨5, 5⟩, ⟨25, 25⟩, 0⟩, ⟨⟨200, 200⟩, ⟨300, 300⟩, 0⟩]

/-- The `UpdateResources` step of a frame: the event pump writes the
latest pointer position into the shared resource. -/
def setMouse (s : ElementCreator) (m : MousePosition) : ElementCreator :=
  { s with mouse := m }

/-- `ElementCreator::dispatch()`: run `SysA` once; it rewrites the
component state and appends its commands to the shared queue. -/
def dispatch (s : ElementCreator) : ElementCreator :=
  { s with
      entities := runSysEntities s.mouse s.entities
      queue := s.queue ++ runSysCommands s.mouse s.entities }

/-- The `ClearCommandQueue` step at the end of each main-loop iteration. -/
def clearQueue (s : ElementCreator) : ElementCreator :=
  { s with queue := [] }

/-- One main-loop iteration: update the pointer resource, dispatch the
system, render (which only reads the state), clear the queue. -/
def frame (s : ElementCreator) (m : MousePosition) : ElementCreator :=
  clearQueue (dispatch (setMouse s m))

/-- A run of the main loop over a sequence of per-frame pointer
positions. -/
def runFrames (s : ElementCreator) (ms : List MousePosition) : ElementCreator :=
  ms.foldl frame s

/-- `latest_id += 1` in `bootstrap_new_entity` (`u16` wraparound). -/
def bootStep (c : Nat) : Nat := (c + 1) % W16

/-- The `u16` counter value after `n` calls to `bootstrap_new_entity`,
starting from the 0 set by `ElementCreator::new()`. -/
def counterAfter : Nat → Nat
  | 0 => 0
  | n + 1 => bootStep (counterAfter n)

/-- `Identity(self.latest_id - 1)` evaluated after the increment
(`u16` wrapping subtraction). -/
def idFromCounter (c : Nat) : Nat := (c + (W16 - 1)) % W16

/-- The identity handed out by the `n`-th allocation call (0-indexed). -/
def idOfCall (n : Nat) : Nat := idFromCounter (bootStep (counterAfter n))

/-- The parent argument recorded for the `k`-th call of a protocol. -/
def pf (calls : List SquareCall) (k : Nat) : Nat :=
  (calls.getD k ⟨⟨0, 0⟩, ⟨0, 0⟩, 0⟩).child_of

/-- A protocol is well formed when every call's parent identity was
already issued (or equals the current counter, naming the root); this
is exactly the condition under which no `add_square` call panics. -/
def Wf (calls : List SquareCall) : Prop :=
  ∀ k, k < calls.length → pf calls k ≤ k

/-- The child list accumulated by the square created at identity `i`:
all later calls whose parent resolved to it. -/
def childrenOf (calls : List SquareCall) (i : Nat) : List Nat :=
  (List.range calls.length).filter fun k => pf calls k == i && k != i

/-- The child list accumulated by the root container: all calls whose
parent argument equalled the counter at call time. -/
def rootChildren (calls : List SquareCall) : List Nat :=
  (List.range calls.length).filter fun k => pf calls k == k

/-- The scene element created by the `k`-th call. -/
def elemOf (calls : List SquareCall) (k : Nat) : UiElement :=
  UiElement.Square (calls.getD k ⟨⟨0, 0⟩, ⟨0, 0⟩, 0⟩).p1
    (calls.getD k ⟨⟨0, 0⟩, ⟨0, 0⟩, 0⟩).p2 (childrenOf calls k)

/-- The ECS entity created by the `k`-th call. -/
def entityOf (calls : List SquareCall) (k : Nat) : Entity :=
  ⟨k, ⟨(calls.getD k ⟨⟨0, 0⟩, ⟨0, 0⟩, 0⟩).p1.x, (calls.getD k ⟨⟨0, 0⟩, ⟨0, 0⟩, 0⟩).p1.y,
       (calls.getD k ⟨⟨0, 0⟩, ⟨0, 0⟩, 0⟩).p2.x, (calls.getD k ⟨⟨0, 0⟩, ⟨0, 0⟩, 0⟩).p2.y⟩,
   false⟩

/-- Closed form of the state built by a well-formed protocol of at most
`2^16` calls: element `k` sits at index `k`, and the root container has
been shifted to the final index. -/
def sceneOf (calls : List SquareCall) : ElementCreator :=
  { latest_id := calls.length % W16
    entities := (List.range calls.length).map (entityOf calls)
    mouse := ⟨0, 0⟩
    queue := []
    ui := (List.range calls.length).map (elemOf calls) ++
      [UiElement.Square ⟨0, 0⟩ ⟨400, 400⟩ (rootChildren calls)] }

/-- The child list consulted by the traversal at stack entry `i`. -/
def kids (ui : List UiElement) (i : Nat) : List Nat :=
  childIds (ui.getD i dElem)

/-- Reachability along child edges of the scene-graph vector, from the
traversal's start index. -/
inductive ReachU (ui : List UiElement) : Nat → Nat → Prop where
  | refl (i : Nat) : ReachU ui i i
  | step {i c j : Nat} : c ∈ kids ui i → ReachU ui c j → ReachU ui i j

/-- Recursive companion of the traversal loop: the list of indices a
depth-first visit starting at `i` produces, children taken in reverse
list order (matching the LIFO stack), with explicit fuel. -/
def visitF (ui : List UiElement) : Nat → Nat → List Nat
  | 0, _ => []
  | fuel + 1, i => i :: (kids ui i).reverse.flatMap (visitF ui fuel)

/-- The traversal-relevant shape of a protocol-built scene vector with
`n` squares: every square's children are strictly larger indices of
squares, every square has at most one parent among the squares, and no
child list repeats an entry. -/
structure TreeShape (ui : List UiElement) (n : Nat) : Prop where
  hlen : n < ui.length
  hedge : ∀ i, i < n → ∀ c ∈ kids ui i, i < c ∧ c < n
  huniq : ∀ cc i j, i < n → j < n → cc ∈ kids ui i → cc ∈ kids ui j → i = j
  hnd : ∀ i, i < n → (kids ui i).Nodup

/-- Iterated frames for a single entity under a fixed pointer position
(the entity's evolution across repeated `SysA` runs). -/
def iterateFrames (m : MousePosition) : Nat → Entity → Entity
  | 0, e => e
  | k + 1, e => iterateFrames m k (updateEntity m e)

theorem length_insertAt {l : List α} {n : Nat} (x : α) (h : n ≤ l.length) :
    (insertAt n x l).length = l.length + 1 := by
  induction n generalizing l with
  | zero => simp [insertAt]
  | succ n ih =>
    cases l with
    | nil => simp at h
    | cons a l =>
      simp only [insertAt, List.length_cons]
      rw [ih (by simpa using h)]

theorem getElem?_insertAt_lt {l : List α} {n k : Nat} (x : α) (h : k < n) :
    (insertAt n x l)[k]? = l[k]? := by
  induction n generalizing l k with
  | zero => omega
  | succ n ih =>
    cases l with
    | nil => simp [insertAt]
    | cons a l =>
      cases k with
      | zero => simp [insertAt]
      | succ k => simpa [insertAt] using ih (by omega)

theorem getElem?_insertAt_self {l : List α} {n : Nat} (x : α) (h : n ≤ l.length) :
    (insertAt n x l)[n]? = some x := by
  induction n generalizing l with
  | zero => simp [insertAt]
  | succ n ih =>
    cases l with
    | nil => simp at h
    | cons a l => simpa [insertAt] using ih (by simpa using h)

theorem getElem?_insertAt_succ {l : List α} {n k : Nat} (x : α) (h : n ≤ k) :
    (insertAt n x l)[k + 1]? = l[k]? := by
  induction n generalizing l k with
  | zero => simp [insertAt]
  | succ n ih =>
    cases l with
    | nil => simp [insertAt]
    | cons a l =>
      cases k with
      | zero => omega
      | succ k => simpa [insertAt] using ih (by omega)

theorem pf_append_lt {pre : List SquareCall} {c : SquareCall} {k : Nat}
    (h : k < pre.length) : pf (pre ++ [c]) k = pf pre k := by
  unfold pf List.getD
  rw [List.get?_eq_getElem?, List.get?_eq_getElem?, List.getElem?_append_left h]

theorem pf_append_self {pre : List SquareCall} {c : SquareCall} :
    pf (pre ++ [c]) pre.length = c.child_of := by
  unfold pf List.getD
  rw [List.get?_eq_getElem?, List.getElem?_append_right (Nat.le_refl _)]
  simp

theorem childrenOf_append_parent {pre : List SquareCall} {c : SquareCall}
    (hco : c.child_of < pre.length) :
    childrenOf (pre ++ [c]) c.child_of = childrenOf pre c.child_of ++ [pre.length] := by
  unfold childrenOf
  rw [List.length_append, List.length_singleton, List.range_succ, List.filter_append]
  congr 1
  · exact List.filter_congr fun k hk => by
      rw [pf_append_lt (List.mem_range.mp hk)]
  · simp [pf_append_self, Nat.ne_of_gt hco]

theorem childrenOf_append_other {pre : List SquareCall} {c : SquareCall} {i : Nat}
    (hne : c.child_of ≠ i) :
    childrenOf (pre ++ [c]) i = childrenOf pre i := by
  unfold childrenOf
  rw [List.length_append, List.length_singleton, List.range_succ, List.filter_append]
  have h2 : List.filter (fun k => pf (pre ++ [c]) k == i && k != i) [pre.length] = [] := by
    simp [pf_append_self, hne]
  rw [h2, List.append_nil]
  exact List.filter_congr fun k hk => by
    rw [pf_append_lt (List.mem_range.mp hk)]

theorem childrenOf_append_new {pre : List SquareCall} {c : SquareCall}
    (hwf : Wf pre) : childrenOf (pre ++ [c]) pre.length = [] := by
  unfold childrenOf
  rw [List.length_append, List.length_singleton, List.range_succ, List.filter_append]
  have h2 : List.filter
      (fun k => pf (pre ++ [c]) k == pre.length && k != pre.length) [pre.length] = [] := by
    simp
  rw [h2, List.append_nil, List.filter_eq_nil_iff]
  intro k hk
  have hk' : k < pre.length := List.mem_range.mp hk
  rw [pf_append_lt hk']
  have := hwf k hk'
  simp only [Bool.and_eq_true, beq_iff_eq, bne_iff_ne, ne_eq, not_and]
  omega

theorem rootChildren_append_root {pre : List SquareCall} {c : SquareCall}
    (hco : c.child_of = pre.length) :
    rootChildren (pre ++ [c]) = rootChildren pre ++ [pre.length] := by
  unfold rootChildren
  rw [List.length_append, List.length_singleton, List.range_succ, List.filter_append]
  congr 1
  · exact List.filter_congr fun k hk => by
      rw [pf_append_lt (List.mem_range.mp hk)]
  · simp [pf_append_self, hco]

theorem rootChildren_append_other {pre : List SquareCall} {c : SquareCall}
    (hco : c.child_of ≠ pre.length) :
    rootChildren (pre ++ [c]) = rootChildren pre := by
  unfold rootChildren
  rw [List.length_append, List.length_singleton, List.range_succ, List.filter_append]
  have h2 : List.filter (fun k => pf (pre ++ [c]) k == k) [pre.length] = [] := by
    simp [pf_append_self, hco]
  rw [h2, List.append_nil]
  exact List.filter_congr fun k hk => by
    rw [pf_append_lt (List.mem_range.mp hk)]

theorem sceneOf_ui_length (calls : List SquareCall) :
    (sceneOf calls).ui.length = calls.length + 1 := by
  simp [sceneOf]

theorem getD_append_lt {l l' : List α} {k : Nat} (d : α) (h : k < l.length) :
    (l ++ l').getD k d = l.getD k d := by
  unfold List.getD
  rw [List.get?_eq_getElem?, List.get?_eq_getElem?, List.getElem?_append_left h]

theorem getD_append_self {l : List α} {x : α} (d : α) :
    (l ++ [x]).getD l.length d = x := by
  unfold List.getD
  rw [List.get?_eq_getElem?, List.getElem?_append_right (Nat.le_refl _)]
  simp

theorem elemOf_append_lt {pre : List SquareCall} {c : SquareCall} {k : Nat}
    (h : k < pre.length) (hne : c.child_of ≠ k) :
    elemOf (pre ++ [c]) k = elemOf pre k := by
  unfold elemOf
  rw [getD_append_lt _ h, childrenOf_append_other hne]

theorem entityOf_append_lt {pre : List SquareCall} {c : SquareCall} {k : Nat}
    (h : k < pre.length) : entityOf (pre ++ [c]) k = entityOf pre k := by
  unfold entityOf
  rw [getD_append_lt _ h]

theorem sceneOf_ui_getElem_lt {calls : List SquareCall} {k : Nat} (h : k < calls.length) :
    (sceneOf calls).ui[k]? = some (elemOf calls k) := by
  unfold sceneOf
  simp only []
  rw [List.getElem?_append_left (by simpa using h)]
  simp [List.getElem?_range, h]

theorem sceneOf_ui_getElem_self {calls : List SquareCall} :
    (sceneOf calls).ui[calls.length]? =
      some (UiElement.Square ⟨0, 0⟩ ⟨400, 400⟩ (rootChildren calls)) := by
  unfold sceneOf
  simp only []
  rw [List.getElem?_append_right (by simp)]
  simp

theorem entitiesOf_append (pre : List SquareCall) (c : SquareCall) :
    (List.range (pre ++ [c]).length).map (entityOf (pre ++ [c])) =
      (List.range pre.length).map (entityOf pre) ++
        [⟨pre.length, ⟨c.p1.x, c.p1.y, c.p2.x, c.p2.y⟩, false⟩] := by
  rw [List.length_append, List.length_singleton, List.range_succ, List.map_append]
  congr 1
  · exact List.map_congr_left fun k hk => entityOf_append_lt (List.mem_range.mp hk)
  · simp only [List.map_cons, List.map_nil]
    unfold entityOf
    rw [getD_append_self]

set_option maxRecDepth 4000 in
theorem add_square_sceneOf (pre : List SquareCall) (c : SquareCall)
    (hwf : Wf pre) (hm : pre.length < W16) (hco : c.child_of ≤ pre.length) :
    add_square (sceneOf pre) c.p1 c.p2 c.child_of =
      some (sceneOf (pre ++ [c]), pre.length) := by
  have hlen : (sceneOf pre).ui.length = pre.length + 1 := sceneOf_ui_length pre
  have hlatest : (sceneOf pre).latest_id = pre.length := by
    simp [sceneOf, Nat.mod_eq_of_lt hm]
  have hguard1 : c.child_of < (sceneOf pre).ui.length := by omega
  have hsetlen :
      ((sceneOf pre).ui.set c.child_of
        (((sceneOf pre).ui.getD c.child_of dElem).add_child (sceneOf pre).latest_id)).length =
        pre.length + 1 := by
    rw [List.length_set, hlen]
  have hguard2 : (sceneOf pre).latest_id ≤ pre.length + 1 := by omega
  unfold add_square
  rw [if_pos hguard1, if_pos (by rw [hsetlen]; exact hguard2)]
  have hentid :
      (((sceneOf pre).latest_id + 1) % W16 + (W16 - 1)) % W16 = pre.length := by
    rw [hlatest]; unfold W16 at hm ⊢; omega
  refine congrArg some (Prod.ext ?_ (by simpa using hlatest))
  refine ElementCreator.ext ?_ ?_ ?_ ?_ ?_
  · -- latest_id
    show ((sceneOf pre).latest_id + 1) % W16 = (sceneOf (pre ++ [c])).latest_id
    rw [hlatest]
    show (pre.length + 1) % W16 = (pre ++ [c]).length % W16
    rw [List.length_append, List.length_singleton]
  · -- entities
    show (sceneOf pre).entities ++
        [⟨(((sceneOf pre).latest_id + 1) % W16 + (W16 - 1)) % W16,
          ⟨c.p1.x, c.p1.y, c.p2.x, c.p2.y⟩, false⟩] =
      (sceneOf (pre ++ [c])).entities
    rw [hentid]
    show (List.range pre.length).map (entityOf pre) ++
        [⟨pre.length, ⟨c.p1.x, c.p1.y, c.p2.x, c.p2.y⟩, false⟩] =
      (List.range (pre ++ [c]).length).map (entityOf (pre ++ [c]))
    rw [entitiesOf_append]
  · -- mouse
    rfl
  · -- queue
    rfl
  · -- ui
    show insertAt (sceneOf pre).latest_id (UiElement.Square c.p1 c.p2 [])
        ((sceneOf pre).ui.set c.child_of
          (((sceneOf pre).ui.getD c.child_of dElem).add_child (sceneOf pre).latest_id)) =
      (sceneOf (pre ++ [c])).ui
    rw [hlatest]
    have hS :
        ((sceneOf pre).ui.set c.child_of
          (((sceneOf pre).ui.getD c.child_of dElem).add_child pre.length)).length =
          pre.length + 1 := by
      rw [List.length_set, hlen]
    have hrhslen : ((sceneOf (pre ++ [c])).ui).length = pre.length + 2 := by
      rw [sceneOf_ui_length]; simp
    apply List.ext_getElem?
    intro n
    rcases Nat.lt_trichotomy n pre.length with hn | hn | hn
    · -- n < pre.length : an old square slot
      rw [getElem?_insertAt_lt _ hn]
      have hrhs : (sceneOf (pre ++ [c])).ui[n]? = some (elemOf (pre ++ [c]) n) :=
        sceneOf_ui_getElem_lt (by simp; omega)
      rw [hrhs]
      by_cases hc : c.child_of = n
      · subst hc
        rw [List.getElem?_set_self (by omega)]
        have hold : (sceneOf pre).ui.getD c.child_of dElem = elemOf pre c.child_of := by
          rw [List.getD_eq_getElem?_getD, sceneOf_ui_getElem_lt hn]; rfl
        rw [hold]
        unfold elemOf UiElement.add_child
        rw [getD_append_lt _ hn, childrenOf_append_parent hn]
      · rw [List.getElem?_set_ne hc, sceneOf_ui_getElem_lt hn,
          elemOf_append_lt hn hc]
    · -- n = pre.length : the freshly inserted square
      subst hn
      rw [getElem?_insertAt_self _ (by omega)]
      have hrhs : (sceneOf (pre ++ [c])).ui[pre.length]? =
          some (elemOf (pre ++ [c]) pre.length) :=
        sceneOf_ui_getElem_lt (by simp)
      rw [hrhs]
      unfold elemOf
      rw [getD_append_self, childrenOf_append_new hwf]
    · -- n > pre.length : the shifted root, then out of range
      rcases Nat.exists_eq_add_of_lt hn with ⟨j, rfl⟩
      rcases Nat.eq_zero_or_pos j with hj | hj
      · subst hj
        simp only [Nat.add_zero]
        rw [getElem?_insertAt_succ _ (Nat.le_refl _)]
        have hrhs : (sceneOf (pre ++ [c])).ui[(pre ++ [c]).length]? =
            some (UiElement.Square ⟨0, 0⟩ ⟨400, 400⟩ (rootChildren (pre ++ [c]))) :=
          sceneOf_ui_getElem_self
        simp only [List.length_append, List.length_singleton] at hrhs
        by_cases hc : c.child_of = pre.length
        · have hold : (sceneOf pre).ui.getD pre.length dElem =
              UiElement.Square ⟨0, 0⟩ ⟨400, 400⟩ (rootChildren pre) := by
            rw [List.getD_eq_getElem?_getD, sceneOf_ui_getElem_self]; rfl
          rw [hc, List.getElem?_set_self (by omega), hold, hrhs,
            rootChildren_append_root hc]
          rfl
        · rw [List.getElem?_set_ne hc, sceneOf_ui_getElem_self, hrhs,
            rootChildren_append_other hc]
      · -- past the end on both sides
        have hllen :
            (insertAt pre.length (UiElement.Square c.p1 c.p2 [])
              ((sceneOf pre).ui.set c.child_of
                (((sceneOf pre).ui.getD c.child_of dElem).add_child pre.length))).length =
            pre.length + 2 := by
          rw [length_insertAt _ (by omega)]
          omega
        rw [List.getElem?_eq_none (by omega), List.getElem?_eq_none (by omega)]

theorem sceneOf_nil : sceneOf [] = ElementCreator.new := by decide

theorem buildFrom_sceneOf (suf : List SquareCall) :
    ∀ pre s, Wf pre → pre.length + suf.length ≤ W16 →
      buildFrom (sceneOf pre) suf = some s →
      Wf (pre ++ suf) ∧ s = sceneOf (pre ++ suf) := by
  induction suf with
  | nil =>
    intro pre s hwf _ h
    simp only [buildFrom] at h
    cases h
    exact ⟨by simpa using hwf, by simp⟩
  | cons c suf ih =>
    intro pre s hwf hlen h
    simp only [buildFrom] at h
    rcases Option.bind_eq_some.mp h with ⟨r, hr, hrest⟩
    have hco : c.child_of ≤ pre.length := by
      by_contra hco
      push_neg at hco
      have hng : ¬ (c.child_of < (sceneOf pre).ui.length) := by
        rw [sceneOf_ui_length]; omega
      unfold add_square at hr
      rw [if_neg hng] at hr
      cases hr
    have hm : pre.length < W16 := by
      simp only [List.length_cons] at hlen
      omega
    rw [add_square_sceneOf pre c hwf hm hco] at hr
    cases hr
    have hwf' : Wf (pre ++ [c]) := by
      intro k hk
      simp only [List.length_append, List.length_singleton] at hk
      rcases Nat.lt_or_ge k pre.length with hk' | hk'
      · rw [pf_append_lt hk']
        exact hwf k hk'
      · have hkk : k = pre.length := by omega
        subst hkk
        rw [pf_append_self]
        exact hco
    have hlen' : (pre ++ [c]).length + suf.length ≤ W16 := by
      simp only [List.length_append, List.length_singleton]
      simp only [List.length_cons] at hlen
      omega
    have hres := ih (pre ++ [c]) s hwf' hlen' hrest
    rwa [List.append_assoc, List.singleton_append] at hres

theorem buildScene_sceneOf (calls : List SquareCall) (s : ElementCreator)
    (hlen : calls.length ≤ W16) (h : buildScene calls = some s) :
    Wf calls ∧ s = sceneOf calls := by
  have h0 : buildFrom (sceneOf []) calls = some s := by
    rw [sceneOf_nil]; exact h
  have hres := buildFrom_sceneOf calls [] s (fun k hk => by simp at hk)
    (by simpa using hlen) h0
  simpa using hres

theorem flatMap_congr {l : List α} {f g : α → List β}
    (h : ∀ a ∈ l, f a = g a) : l.flatMap f = l.flatMap g := by
  rw [List.flatMap_def, List.flatMap_def, List.map_congr_left h]

theorem mem_childrenOf {calls : List SquareCall} {k i : Nat} :
    k ∈ childrenOf calls i ↔ k < calls.length ∧ pf calls k = i ∧ k ≠ i := by
  unfold childrenOf
  simp [List.mem_filter, List.mem_range, and_assoc]

theorem kids_sceneOf_lt {calls : List SquareCall} {i : Nat} (h : i < calls.length) :
    kids (sceneOf calls).ui i = childrenOf calls i := by
  unfold kids
  rw [List.getD_eq_getElem?_getD, sceneOf_ui_getElem_lt h]
  rfl

theorem treeShape_sceneOf {calls : List SquareCall} (hwf : Wf calls) :
    TreeShape (sceneOf calls).ui calls.length := by
  refine ⟨by rw [sceneOf_ui_length]; omega, ?_, ?_, ?_⟩
  · intro i hi c hc
    rw [kids_sceneOf_lt hi] at hc
    rcases mem_childrenOf.mp hc with ⟨hck, hcp, hcne⟩
    have := hwf c hck
    omega
  · intro cc i j hi hj hci hcj
    rw [kids_sceneOf_lt hi] at hci
    rw [kids_sceneOf_lt hj] at hcj
    rcases mem_childrenOf.mp hci with ⟨_, hp1, _⟩
    rcases mem_childrenOf.mp hcj with ⟨_, hp2, _⟩
    omega
  · intro i hi
    rw [kids_sceneOf_lt hi]
    exact (List.nodup_range _).filter _

theorem visitF_stable {ui : List UiElement} {n : Nat} (ts : TreeShape ui n) :
    ∀ fuel i, i < n → n - i ≤ fuel → visitF ui (fuel + 1) i = visitF ui fuel i := by
  intro fuel
  induction fuel with
  | zero => intro i hi hf; omega
  | succ fuel ih =>
    intro i hi hf
    show i :: (kids ui i).reverse.flatMap (visitF ui (fuel + 1)) =
      i :: (kids ui i).reverse.flatMap (visitF ui fuel)
    congr 1
    refine flatMap_congr fun c hc => ?_
    rcases ts.hedge i hi c (List.mem_reverse.mp hc) with ⟨hic, hcn⟩
    exact ih c hcn (by omega)

theorem visitF_unfold {ui : List UiElement} {n : Nat} (ts : TreeShape ui n)
    {i : Nat} (hi : i < n) :
    visitF ui (n + 1) i = i :: (kids ui i).reverse.flatMap (visitF ui (n + 1)) := by
  show i :: (kids ui i).reverse.flatMap (visitF ui n) = _
  congr 1
  refine flatMap_congr fun c hc => ?_
  rcases ts.hedge i hi c (List.mem_reverse.mp hc) with ⟨hic, hcn⟩
  exact (visitF_stable ts n c hcn (by omega)).symm

theorem visitF_reach {ui : List UiElement} :
    ∀ fuel i j, j ∈ visitF ui fuel i → ReachU ui i j := by
  intro fuel
  induction fuel with
  | zero => intro i j h; simp [visitF] at h
  | succ fuel ih =>
    intro i j h
    rcases List.mem_cons.mp h with h | h
    · subst h; exact ReachU.refl _
    · rcases List.mem_flatMap.mp h with ⟨c, hc, hj⟩
      exact ReachU.step (List.mem_reverse.mp hc) (ih c j hj)

theorem reach_visitF {ui : List UiElement} {n : Nat} (ts : TreeShape ui n) :
    ∀ fuel i j, i < n → n - i ≤ fuel → ReachU ui i j → j ∈ visitF ui fuel i := by
  intro fuel
  induction fuel with
  | zero => intro i j hi hf; omega
  | succ fuel ih =>
    intro i j hi hf hr
    cases hr with
    | refl => exact List.mem_cons_self _ _
    | step hc hr' =>
      rename_i c
      rcases ts.hedge i hi c hc with ⟨hic, hcn⟩
      refine List.mem_cons_of_mem _ (List.mem_flatMap.mpr ⟨c, List.mem_reverse.mpr hc, ?_⟩)
      exact ih c j hcn (by omega) hr'

theorem visitF_bounds {ui : List UiElement} {n : Nat} (ts : TreeShape ui n) :
    ∀ fuel i j, i < n → j ∈ visitF ui fuel i → i ≤ j ∧ j < n := by
  intro fuel
  induction fuel with
  | zero => intro i j hi h; simp [visitF] at h
  | succ fuel ih =>
    intro i j hi h
    rcases List.mem_cons.mp h with h | h
    · subst h; omega
    · rcases List.mem_flatMap.mp h with ⟨c, hc, hj⟩
      rcases ts.hedge i hi c (List.mem_reverse.mp hc) with ⟨hic, hcn⟩
      rcases ih c j hcn hj with ⟨hcj, hjn⟩
      omega

theorem reach_bounds {ui : List UiElement} {n : Nat} (ts : TreeShape ui n) :
    ∀ {i j : Nat}, ReachU ui i j → i < n → i ≤ j ∧ j < n := by
  intro i j hr
  induction hr with
  | refl => intro hi; omega
  | step hc hr' ih =>
    rename_i a c b
    intro ha
    rcases ts.hedge a ha c hc with ⟨hac, hcn⟩
    rcases ih hcn with ⟨hcb, hbn⟩
    omega

theorem reach_last_step {ui : List UiElement} :
    ∀ {i j : Nat}, ReachU ui i j → i ≠ j →
      ∃ p, ReachU ui i p ∧ j ∈ kids ui p := by
  intro i j hr
  induction hr with
  | refl => intro hne; exact absurd rfl hne
  | step hc hr' ih =>
    rename_i a c b
    intro _
    by_cases hcb : c = b
    · subst hcb
      exact ⟨a, ReachU.refl a, hc⟩
    · rcases ih hcb with ⟨p, hp, hb⟩
      exact ⟨p, ReachU.step hc hp, hb⟩

theorem reach_total {ui : List UiElement} {n : Nat} (ts : TreeShape ui n) :
    ∀ j a b, a < n → b < n → ReachU ui a j → ReachU ui b j →
      ReachU ui a b ∨ ReachU ui b a := by
  intro j
  induction j using Nat.strong_induction_on with
  | _ j ih =>
    intro a b ha hb hra hrb
    by_cases haj : a = j
    · subst haj; exact Or.inr hrb
    by_cases hbj : b = j
    · subst hbj; exact Or.inl hra
    rcases reach_last_step hra haj with ⟨p1, hp1, hj1⟩
    rcases reach_last_step hrb hbj with ⟨p2, hp2, hj2⟩
    have hp1n : p1 < n := (reach_bounds ts hp1 ha).2
    have hp2n : p2 < n := (reach_bounds ts hp2 hb).2
    have hpe : p1 = p2 := ts.huniq j p1 p2 hp1n hp2n hj1 hj2
    subst hpe
    have hpj : p1 < j := (ts.hedge p1 hp1n j hj1).1
    exact ih p1 hpj a b ha hb hp1 hp2

theorem subtree_disjoint {ui : List UiElement} {n : Nat} (ts : TreeShape ui n)
    {i c1 c2 : Nat} (hi : i < n) (h1 : c1 ∈ kids ui i) (h2 : c2 ∈ kids ui i)
    (hne : c1 ≠ c2) : ∀ x, ReachU ui c1 x → ReachU ui c2 x → False := by
  intro x hx1 hx2
  have hc1 := ts.hedge i hi c1 h1
  have hc2 := ts.hedge i hi c2 h2
  rcases reach_total ts x c1 c2 hc1.2 hc2.2 hx1 hx2 with h | h
  · rcases reach_last_step h hne with ⟨p, hp, hcp⟩
    have hpn : p < n := (reach_bounds ts hp hc1.2).2
    have hpi : p = i := ts.huniq c2 p i hpn hi hcp h2
    subst hpi
    have hle := (reach_bounds ts hp hc1.2).1
    omega
  · rcases reach_last_step h (Ne.symm hne) with ⟨p, hp, hcp⟩
    have hpn : p < n := (reach_bounds ts hp hc2.2).2
    have hpi : p = i := ts.huniq c1 p i hpn hi hcp h1
    subst hpi
    have hle := (reach_bounds ts hp hc2.2).1
    omega

theorem visitF_nodup {ui : List UiElement} {n : Nat} (ts : TreeShape ui n) :
    ∀ fuel i, i < n → (visitF ui fuel i).Nodup := by
  intro fuel
  induction fuel with
  | zero => intro i hi; simp [visitF]
  | succ fuel ih =>
    intro i hi
    show (i :: (kids ui i).reverse.flatMap (visitF ui fuel)).Nodup
    refine List.nodup_cons.mpr ⟨?_, ?_⟩
    · intro hmem
      rcases List.mem_flatMap.mp hmem with ⟨c, hc, hj⟩
      rcases ts.hedge i hi c (List.mem_reverse.mp hc) with ⟨hic, hcn⟩
      rcases visitF_bounds ts fuel c i hcn hj with ⟨hci, _⟩
      omega
    · refine List.nodup_flatMap.mpr ⟨?_, ?_⟩
      · intro c hc
        exact ih c (ts.hedge i hi c (List.mem_reverse.mp hc)).2
      · have hnd : ((kids ui i).reverse).Nodup :=
          List.nodup_reverse.mpr (ts.hnd i hi)
        refine List.Pairwise.imp_of_mem ?_ hnd
        intro c1 c2 hm1 hm2 hne x hx1 hx2
        exact subtree_disjoint ts hi (List.mem_reverse.mp hm1)
          (List.mem_reverse.mp hm2) hne x
          (visitF_reach fuel c1 x hx1) (visitF_reach fuel c2 x hx2)

theorem renderLoop_mono {ui : List UiElement} :
    ∀ {fuel : Nat} {S V : List Nat}, renderLoop ui fuel S = some V →
      renderLoop ui (fuel + 1) S = some V := by
  intro fuel
  induction fuel with
  | zero => intro S V h; simp [renderLoop] at h
  | succ fuel ih =>
    intro S V h
    cases S with
    | nil => simpa [renderLoop] using h
    | cons i rest =>
      simp only [renderLoop] at h ⊢
      cases hui : ui[i]? with
      | none => rw [hui] at h; simp at h
      | some el =>
        rw [hui] at h
        simp only [Option.some_bind] at h ⊢
        rcases Option.map_eq_some'.mp h with ⟨V', hV', rfl⟩
        exact Option.map_eq_some'.mpr ⟨V', ih hV', rfl⟩

theorem renderLoop_fuel_le {ui : List UiElement} {f g : Nat} {S V : List Nat}
    (hfg : f ≤ g) (h : renderLoop ui f S = some V) : renderLoop ui g S = some V := by
  rcases Nat.exists_eq_add_of_le hfg with ⟨d, rfl⟩
  clear hfg
  induction d with
  | zero => simpa using h
  | succ d ih => simpa [← Nat.add_assoc] using renderLoop_mono ih

theorem renderLoop_flatMap {ui : List UiElement} {n : Nat} (ts : TreeShape ui n) :
    ∀ fuel S, (∀ x ∈ S, x < n) →
      (S.flatMap (visitF ui (n + 1))).length < fuel →
      renderLoop ui fuel S = some (S.flatMap (visitF ui (n + 1))) := by
  intro fuel
  induction fuel with
  | zero => intro S hS h; omega
  | succ fuel ih =>
    intro S hS h
    cases S with
    | nil => simp [renderLoop]
    | cons i rest =>
      have hin : i < n := hS i (List.mem_cons_self _ _)
      have hilen : i < ui.length := Nat.lt_trans hin ts.hlen
      have hel : ui[i]? = some (ui.get ⟨i, hilen⟩) := by
        rw [List.getElem?_eq_getElem hilen]
        rfl
      have hkids : childIds (ui.get ⟨i, hilen⟩) = kids ui i := by
        unfold kids
        rw [List.getD_eq_getElem?_getD, hel]
        rfl
      have hdecomp : (i :: rest).flatMap (visitF ui (n + 1)) =
          i :: (((childIds (ui.get ⟨i, hilen⟩)).reverse ++ rest).flatMap
            (visitF ui (n + 1))) := by
        rw [List.flatMap_cons, List.flatMap_append, visitF_unfold ts hin, hkids]
        simp
      have hmem : ∀ x ∈ (childIds (ui.get ⟨i, hilen⟩)).reverse ++ rest, x < n := by
        intro x hx
        rcases List.mem_append.mp hx with hx | hx
        · rw [hkids] at hx
          exact (ts.hedge i hin x (List.mem_reverse.mp hx)).2
        · exact hS x (List.mem_cons_of_mem _ hx)
      have hlen' :
          ((((childIds (ui.get ⟨i, hilen⟩)).reverse ++ rest)).flatMap
            (visitF ui (n + 1))).length < fuel := by
        have hcg := congrArg List.length hdecomp
        simp only [List.length_cons] at hcg
        omega
      show ((ui[i]?).bind fun el =>
          (renderLoop ui fuel ((childIds el).reverse ++ rest)).map (i :: ·)) =
        some ((i :: rest).flatMap (visitF ui (n + 1)))
      rw [hel]
      simp only [Option.some_bind]
      rw [ih _ hmem hlen', hdecomp]
      rfl

theorem reach_no_kids {ui : List UiElement} {i j : Nat}
    (hk : kids ui i = []) (hr : ReachU ui i j) : j = i := by
  cases hr with
  | refl => rfl
  | step hc hr' => rw [hk] at hc; cases hc

theorem counterAfter_eq (n : Nat) : counterAfter n = n % W16 := by
  induction n with
  | zero => rfl
  | succ n ih =>
    show bootStep (counterAfter n) = _
    rw [ih]
    unfold bootStep W16
    omega

theorem idOfCall_eq (n : Nat) : idOfCall n = n % W16 := by
  unfold idOfCall idFromCounter bootStep
  rw [counterAfter_eq]
  unfold W16
  omega

/-- C3: for every entity processed by the Selection System, the
selection flag written by one run equals the hit test of the pointer
against that entity's pre-frame bounding box. -/
theorem C3_selection_matches_preframe_box (m : MousePosition) (es : List Entity) (k : Nat) :
    ((runSysEntities m es)[k]?).map (fun e => e.selected) =
      (es[k]?).map (fun e => hitTest m e.pos) := by
  unfold runSysEntities
  rw [List.getElem?_map]
  cases es[k]? with
  | none => rfl
  | some e => rfl

/-- C9: the Selection System is deterministic up to join order: runs
over permuted component storages produce permuted (hence equal as sets)
entity states and command queues. -/
theorem C9_join_order_determinism (m : MousePosition) (es1 es2 : List Entity)
    (hp : es1.Perm es2) :
    (runSysEntities m es1).Perm (runSysEntities m es2) ∧
    (runSysCommands m es1).Perm (runSysCommands m es2) ∧
    (∀ e, e ∈ runSysEntities m es1 ↔ e ∈ runSysEntities m es2) ∧
    (∀ c, c ∈ runSysCommands m es1 ↔ c ∈ runSysCommands m es2) := by
  have hents : (runSysEntities m es1).Perm (runSysEntities m es2) := hp.map _
  have hcmds : (runSysCommands m es1).Perm (runSysCommands m es2) :=
    (hp.filter _).map _
  exact ⟨hents, hcmds, fun e => hents.mem_iff, fun c => hcmds.mem_iff⟩

theorem C9_witness :
    ([⟨0, ⟨0, 0, 9, 9⟩, false⟩, ⟨1, ⟨20, 20, 30, 30⟩, false⟩] : List Entity).Perm
      [⟨1, ⟨20, 20, 30, 30⟩, false⟩, ⟨0, ⟨0, 0, 9, 9⟩, false⟩] ∧
    ((runSysEntities ⟨5, 5⟩ [⟨0, ⟨0, 0, 9, 9⟩, false⟩, ⟨1, ⟨20, 20, 30, 30⟩, false⟩]).Perm
      (runSysEntities ⟨5, 5⟩ [⟨1, ⟨20, 20, 30, 30⟩, false⟩, ⟨0, ⟨0, 0, 9, 9⟩, false⟩]) ∧
    (runSysCommands ⟨5, 5⟩ [⟨0, ⟨0, 0, 9, 9⟩, false⟩, ⟨1, ⟨20, 20, 30, 30⟩, false⟩]).Perm
      (runSysCommands ⟨5, 5⟩ [⟨1, ⟨20, 20, 30, 30⟩, false⟩, ⟨0, ⟨0, 0, 9, 9⟩, false⟩]) ∧
    (∀ e, e ∈ runSysEntities ⟨5, 5⟩ [⟨0, ⟨0, 0, 9, 9⟩, false⟩, ⟨1, ⟨20, 20, 30, 30⟩, false⟩] ↔
      e ∈ runSysEntities ⟨5, 5⟩ [⟨1, ⟨20, 20, 30, 30⟩, false⟩, ⟨0, ⟨0, 0, 9, 9⟩, false⟩]) ∧
    (∀ c, c ∈ runSysCommands ⟨5, 5⟩ [⟨0, ⟨0, 0, 9, 9⟩, false⟩, ⟨1, ⟨20, 20, 30, 30⟩, false⟩] ↔
      c ∈ runSysCommands ⟨5, 5⟩ [⟨1, ⟨20, 20, 30, 30⟩, false⟩, ⟨0, ⟨0, 0, 9, 9⟩, false⟩])) :=
  ⟨by decide, C9_join_order_determinism ⟨5, 5⟩ _ _ (by decide)⟩

/-- C10: the render pass sizes each rectangle by unsigned subtraction
`corner2 - corner1`, which underflows (debug panic) whenever the second
corner is smaller on either axis, and `add_square` accepts such corners
without any check, so the element is constructible through the public
interface. -/
theorem C10_rect_underflow (p1 p2 : Position) (h : p2.x < p1.x ∨ p2.y < p1.y) :
    rectSize p1 p2 = none ∧
    ∀ s : ElementCreator, ∀ parent : Nat, parent < s.ui.length →
      s.latest_id ≤ s.ui.length →
      ∃ s', add_square s p1 p2 parent = some (s', s.latest_id) ∧
        s'.ui[s.latest_id]? = some (UiElement.Square p1 p2 []) := by
  constructor
  · rcases h with h | h
    · have hx : subU32 p2.x p1.x = none := by
        unfold subU32; rw [if_neg (by omega)]
      unfold rectSize
      rw [hx]
    · have hy : subU32 p2.y p1.y = none := by
        unfold subU32; rw [if_neg (by omega)]
      unfold rectSize
      rw [hy]
      cases subU32 p2.x p1.x <;> rfl
  · intro s parent h1 h2
    unfold add_square
    rw [if_pos h1, if_pos (by rw [List.length_set]; exact h2)]
    refine ⟨_, rfl, ?_⟩
    exact getElem?_insertAt_self _ (by rw [List.length_set]; exact h2)

theorem C10_witness :
    ((5 : Nat) < 10 ∨ (5 : Nat) < 10) ∧
    rectSize ⟨10, 10⟩ ⟨5, 5⟩ = none ∧
    (∃ s', add_square ElementCreator.new ⟨10, 10⟩ ⟨5, 5⟩ 0 = some (s', 0) ∧
      s'.ui[(0 : Nat)]? = some (UiElement.Square ⟨10, 10⟩ ⟨5, 5⟩ [])) :=
  ⟨Or.inl (by decide), (C10_rect_underflow ⟨10, 10⟩ ⟨5, 5⟩ (Or.inl (by decide))).1,
    (C10_rect_underflow ⟨10, 10⟩ ⟨5, 5⟩ (Or.inl (by decide))).2
      ElementCreator.new 0 (by decide) (by decide)⟩

/-- C7 counterexample: with the `u16` counter, the allocation made on
call 65536 returns the same identity as the allocation made on call 0,
so identities are not unique over an unbounded Scene Builder lifetime. -/
theorem C7_identity_reuse_after_wrap : idOfCall 65536 = idOfCall 0 ∧ (65536 : Nat) ≠ 0 := by
  constructor
  · rw [idOfCall_eq, idOfCall_eq]
    decide
  · decide

/-- C7 amended: identity allocation is strictly increasing (hence free
of reuse) across the first `2^16` allocation calls; beyond that the
`u16` counter wraps. -/
theorem C7_alloc_strictly_increasing (a b : Nat) (hab : a < b) (hb : b < W16) :
    idOfCall a < idOfCall b := by
  rw [idOfCall_eq, idOfCall_eq, Nat.mod_eq_of_lt (Nat.lt_trans hab hb),
    Nat.mod_eq_of_lt hb]
  exact hab

theorem C7_alloc_witness : 1 < 2 ∧ 2 < W16 ∧ idOfCall 1 < idOfCall 2 :=
  ⟨by decide, by decide, C7_alloc_strictly_increasing 1 2 (by decide) (by decide)⟩

/-- C6 counterexample: `add_square` attached to a Text-leaf parent does
not raise any error: it succeeds, returns a fresh identity, and leaves
the text leaf unchanged and childless. -/
theorem C6_no_invalid_parent_error :
    add_square ⟨0, [], ⟨0, 0⟩, [], [UiElement.Text ⟨0, 0⟩ "t"]⟩ ⟨1, 1⟩ ⟨2, 2⟩ 0 =
      some (⟨1, [⟨0, ⟨1, 1, 2, 2⟩, false⟩], ⟨0, 0⟩, [],
        [UiElement.Square ⟨1, 1⟩ ⟨2, 2⟩ [], UiElement.Text ⟨0, 0⟩ "t"]⟩, 0) := by
  decide

/-- C6 amended: `add_square` never raises a recoverable error: any
in-range parent (a text leaf included) is silently accepted — the text
leaf keeps no children since `add_child` ignores it — while an
out-of-range parent identity panics (index out of bounds) rather than
surfacing an `InvalidParentError`. -/
theorem C6_parent_handling (s : ElementCreator) (p1 p2 : Position) (parent : Nat) :
    (parent < s.ui.length → s.latest_id ≤ s.ui.length →
      (add_square s p1 p2 parent).isSome = true) ∧
    (∀ p str c, UiElement.add_child (UiElement.Text p str) c = UiElement.Text p str) ∧
    (s.ui.length ≤ parent → add_square s p1 p2 parent = none) := by
  refine ⟨?_, fun p str c => rfl, ?_⟩
  · intro h1 h2
    unfold add_square
    rw [if_pos h1, if_pos (by rw [List.length_set]; exact h2)]
    rfl
  · intro h
    unfold add_square
    rw [if_neg (by omega)]

theorem C6_parent_handling_witness :
    (add_square ElementCreator.new ⟨1, 1⟩ ⟨2, 2⟩ 0).isSome = true ∧
    UiElement.add_child (UiElement.Text ⟨0, 0⟩ "t") 7 = UiElement.Text ⟨0, 0⟩ "t" ∧
    add_square ElementCreator.new ⟨1, 1⟩ ⟨2, 2⟩ 5 = none :=
  ⟨(C6_parent_handling ElementCreator.new ⟨1, 1⟩ ⟨2, 2⟩ 0).1 (by decide) (by decide),
    (C6_parent_handling ElementCreator.new ⟨1, 1⟩ ⟨2, 2⟩ 0).2.1 ⟨0, 0⟩ "t" 7,
    (C6_parent_handling ElementCreator.new ⟨1, 1⟩ ⟨2, 2⟩ 5).2.2 (by decide)⟩

theorem iterate_grow5 (m : MousePosition) : ∀ (k : Nat) (e : Entity),
    e.pos.xMin < U32 → e.pos.yMin < U32 → e.pos.xMax < U32 → e.pos.yMax < U32 →
    (∀ j, j < k → hitTest m (iterateFrames m j e).pos = true) →
    (iterateFrames m k e).pos =
      ⟨(e.pos.xMin + 5 * k) % U32, (e.pos.yMin + 5 * k) % U32,
       (e.pos.xMax + 5 * k) % U32, (e.pos.yMax + 5 * k) % U32⟩ := by
  intro k
  induction k with
  | zero =>
    intro e h1 h2 h3 h4 _
    show e.pos = _
    refine Pos.ext ?_ ?_ ?_ ?_ <;> simp only [Nat.mul_zero, Nat.add_zero]
    exacts [(Nat.mod_eq_of_lt h1).symm, (Nat.mod_eq_of_lt h2).symm,
      (Nat.mod_eq_of_lt h3).symm, (Nat.mod_eq_of_lt h4).symm]
  | succ k ih =>
    intro e h1 h2 h3 h4 hall
    have h0 : hitTest m e.pos = true := hall 0 (Nat.succ_pos k)
    have hpos : (updateEntity m e).pos = grow5 e.pos := by
      simp [updateEntity, h0]
    have hamod : 0 < U32 := by unfold U32; omega
    have ih' := ih (updateEntity m e)
      (by rw [hpos]; exact Nat.mod_lt _ hamod)
      (by rw [hpos]; exact Nat.mod_lt _ hamod)
      (by rw [hpos]; exact Nat.mod_lt _ hamod)
      (by rw [hpos]; exact Nat.mod_lt _ hamod)
      (fun j hj => hall (j + 1) (by omega))
    show (iterateFrames m k (updateEntity m e)).pos = _
    rw [ih', hpos]
    show Pos.mk (((e.pos.xMin + 5) % U32 + 5 * k) % U32)
        (((e.pos.yMin + 5) % U32 + 5 * k) % U32)
        (((e.pos.xMax + 5) % U32 + 5 * k) % U32)
        (((e.pos.yMax + 5) % U32 + 5 * k) % U32) = _
    refine Pos.ext ?_ ?_ ?_ ?_ <;> simp only [] <;> rw [Nat.mod_add_mod] <;>
      congr 1 <;> ring

/-- C2 counterexample: with the pointer inside the box `(0,0)-(50,50)`,
one run moves the box to `(5,5)-(55,55)`: `x_min` and `y_min` increase
rather than decrease, so the box does not expand on all four edges. -/
theorem C2_box_translates_not_expands :
    (updateEntity ⟨10, 10⟩ ⟨0, ⟨0, 0, 50, 50⟩, false⟩).selected = true ∧
    (updateEntity ⟨10, 10⟩ ⟨0, ⟨0, 0, 50, 50⟩, false⟩).pos = ⟨5, 5, 55, 55⟩ ∧
    ¬ ((updateEntity ⟨10, 10⟩ ⟨0, ⟨0, 0, 50, 50⟩, false⟩).pos.xMin <
        (Pos.mk 0 0 50 50).xMin) ∧
    ¬ ((updateEntity ⟨10, 10⟩ ⟨0, ⟨0, 0, 50, 50⟩, false⟩).pos.yMin <
        (Pos.mk 0 0 50 50).yMin) := by decide

/-- C2 amended: each frame a selected entity's box is translated by the
margin 5 on all four coordinates (u32 wrap); a non-selected entity's box
is unchanged; under a fixed pointer, while the entity keeps being
selected, after `k` frames every coordinate has advanced by `5 * k`. -/
theorem C2_growth_amended (m : MousePosition) (e : Entity)
    (hb : e.pos.xMin < U32 ∧ e.pos.yMin < U32 ∧ e.pos.xMax < U32 ∧ e.pos.yMax < U32) :
    ((updateEntity m e).selected = hitTest m e.pos) ∧
    (hitTest m e.pos = true → (updateEntity m e).pos = grow5 e.pos) ∧
    (hitTest m e.pos = false → (updateEntity m e).pos = e.pos) ∧
    ∀ k, (∀ j, j < k → hitTest m (iterateFrames m j e).pos = true) →
      (iterateFrames m k e).pos =
        ⟨(e.pos.xMin + 5 * k) % U32, (e.pos.yMin + 5 * k) % U32,
         (e.pos.xMax + 5 * k) % U32, (e.pos.yMax + 5 * k) % U32⟩ := by
  refine ⟨rfl, ?_, ?_, ?_⟩
  · intro h; simp [updateEntity, h]
  · intro h; simp [updateEntity, h]
  · intro k hk
    exact iterate_grow5 m k e hb.1 hb.2.1 hb.2.2.1 hb.2.2.2 hk

theorem C2_growth_witness :
    ((0 : Nat) < U32 ∧ (0 : Nat) < U32 ∧ (50 : Nat) < U32 ∧ (50 : Nat) < U32) ∧
    (∀ j, j < 2 →
      hitTest ⟨10, 10⟩ (iterateFrames ⟨10, 10⟩ j ⟨0, ⟨0, 0, 50, 50⟩, false⟩).pos = true) ∧
    (iterateFrames ⟨10, 10⟩ 2 ⟨0, ⟨0, 0, 50, 50⟩, false⟩).pos = ⟨10, 10, 60, 60⟩ := by
  refine ⟨by decide, by decide, ?_⟩
  have h := (C2_growth_amended ⟨10, 10⟩ ⟨0, ⟨0, 0, 50, 50⟩, false⟩
    (by decide)).2.2.2 2 (by decide)
  rw [h]
  decide

theorem mem_rootChildren {calls : List SquareCall} {k : Nat} :
    k ∈ rootChildren calls → k < calls.length := by
  unfold rootChildren
  intro h
  exact List.mem_range.mp (List.mem_filter.mp h).1

/-- C1 amended: for every protocol run (of at most `2^16` calls), every
issued identity `k` resolves: `ui[k]` is the square created by call `k`,
every identity in any child list is a valid issued identity, and the
root container sits at the final index `calls.length` — it is at index 0
only before the first `add_square`, because each call inserts the new
element at its own identity's index, shifting the root right. -/
theorem C1_identity_resolution (calls : List SquareCall) (s : ElementCreator)
    (h1 : calls.length ≤ W16) (h2 : buildScene calls = some s) :
    (∀ k, k < calls.length →
      ∃ cs, s.ui[k]? = some (UiElement.Square
        (calls.getD k ⟨⟨0, 0⟩, ⟨0, 0⟩, 0⟩).p1
        (calls.getD k ⟨⟨0, 0⟩, ⟨0, 0⟩, 0⟩).p2 cs)) ∧
    (∀ i, i < s.ui.length → ∀ c ∈ kids s.ui i, c < calls.length) ∧
    (∃ rc, s.ui[calls.length]? = some (UiElement.Square ⟨0, 0⟩ ⟨400, 400⟩ rc)) ∧
    s.ui.length = calls.length + 1 := by
  rcases buildScene_sceneOf calls s h1 h2 with ⟨hwf, rfl⟩
  refine ⟨?_, ?_, ⟨rootChildren calls, sceneOf_ui_getElem_self⟩, sceneOf_ui_length calls⟩
  · intro k hk
    exact ⟨childrenOf calls k, sceneOf_ui_getElem_lt hk⟩
  · intro i hi c hc
    rw [sceneOf_ui_length] at hi
    rcases Nat.lt_or_ge i calls.length with h | h
    · rw [kids_sceneOf_lt h] at hc
      exact (mem_childrenOf.mp hc).1
    · have hieq : i = calls.length := by omega
      subst hieq
      have hroot : kids (sceneOf calls).ui calls.length = rootChildren calls := by
        unfold kids
        rw [List.getD_eq_getElem?_getD, sceneOf_ui_getElem_self]
        rfl
      rw [hroot] at hc
      exact mem_rootChildren hc

/-- C1 counterexample: after a single `add_square`, index 0 of the scene
graph holds the newly created square, not the root container; the root
has been shifted to index 1. -/
theorem C1_root_not_at_index_zero :
    (buildScene [⟨⟨1, 2⟩, ⟨3, 4⟩, 0⟩]).map (fun s => s.ui.getD 0 dElem) =
      some (UiElement.Square ⟨1, 2⟩ ⟨3, 4⟩ []) ∧
    (buildScene [⟨⟨1, 2⟩, ⟨3, 4⟩, 0⟩]).map (fun s => s.ui.getD 1 dElem) =
      some (UiElement.Square ⟨0, 0⟩ ⟨400, 400⟩ [0]) ∧
    UiElement.Square ⟨1, 2⟩ ⟨3, 4⟩ [] ≠ UiElement.Square ⟨0, 0⟩ ⟨400, 400⟩ [0] := by
  decide

theorem C1_identity_resolution_witness :
    mainCalls.length ≤ W16 ∧
    ((∀ k, k < mainCalls.length →
      ∃ cs, (sceneOf mainCalls).ui[k]? = some (UiElement.Square
        (mainCalls.getD k ⟨⟨0, 0⟩, ⟨0, 0⟩, 0⟩).p1
        (mainCalls.getD k ⟨⟨0, 0⟩, ⟨0, 0⟩, 0⟩).p2 cs)) ∧
    (∀ i, i < (sceneOf mainCalls).ui.length →
      ∀ c ∈ kids (sceneOf mainCalls).ui i, c < mainCalls.length) ∧
    (∃ rc, (sceneOf mainCalls).ui[mainCalls.length]? =
      some (UiElement.Square ⟨0, 0⟩ ⟨400, 400⟩ rc)) ∧
    (sceneOf mainCalls).ui.length = mainCalls.length + 1) :=
  ⟨by decide, C1_identity_resolution mainCalls (sceneOf mainCalls) (by decide) (by decide)⟩

/-- C4 amended: in the `main` scenario the traversal from index 0 visits
A (the 50 by 50 container, which got identity 0 and both other squares
as children), then C, then B; the root container is never visited. -/
theorem C4_traversal_order_amended :
    (buildScene mainCalls).map
        (fun s => (renderLoop s.ui 10 [0]).map (fun V => V.map (fun i => s.ui.getD i dElem))) =
      some (some [UiElement.Square ⟨0, 0⟩ ⟨50, 50⟩ [1, 2],
        UiElement.Square ⟨200, 200⟩ ⟨300, 300⟩ [],
        UiElement.Square ⟨5, 5⟩ ⟨25, 25⟩ []]) := by decide

/-- C4 counterexample: the traversal of the `main` scene visits indices
`[0, 2, 1]` (that is A, C, B); the root container sits at index 3, which
is not visited, so the traversal does not visit root, C, A, B. -/
theorem C4_traversal_order_counterexample :
    (buildScene mainCalls).map (fun s => renderLoop s.ui 10 [0]) = some (some [0, 2, 1]) ∧
    (buildScene mainCalls).map (fun s => s.ui.getD 3 dElem) =
      some (UiElement.Square ⟨0, 0⟩ ⟨400, 400⟩ [0]) ∧
    (3 : Nat) ∉ ([0, 2, 1] : List Nat) := by decide

theorem runSysEntities_ids (m : MousePosition) (es : List Entity) :
    (runSysEntities m es).map (fun e => e.id) = es.map (fun e => e.id) := by
  unfold runSysEntities
  rw [List.map_map]
  exact List.map_congr_left fun e _ => rfl

theorem runFrames_ids (ms : List MousePosition) : ∀ s : ElementCreator,
    (runFrames s ms).entities.map (fun e => e.id) = s.entities.map (fun e => e.id) := by
  induction ms with
  | nil => intro s; rfl
  | cons m ms ih =>
    intro s
    show (runFrames (frame s m) ms).entities.map _ = _
    rw [ih]
    exact runSysEntities_ids m s.entities

theorem runFrames_queue_nil (ms : List MousePosition) : ∀ s : ElementCreator,
    s.queue = [] → (runFrames s ms).queue = [] := by
  induction ms with
  | nil => intro s h; exact h
  | cons m ms ih => intro s h; exact ih (frame s m) rfl

theorem count_select (p : Entity → Bool) (idn : Nat) :
    ∀ es : List Entity, (es.map (fun e => e.id)).Nodup →
      ((es.filter p).map (fun e => DrawCommand.Select e.id)).count (DrawCommand.Select idn) =
        if es.any (fun e => e.id == idn && p e) then 1 else 0 := by
  intro es
  induction es with
  | nil => intro _; rfl
  | cons e es ih =>
    intro hnd
    rw [List.map_cons, List.nodup_cons] at hnd
    obtain ⟨hni, hnd'⟩ := hnd
    rw [List.filter_cons, List.any_cons]
    by_cases hp : p e
    · rw [if_pos hp, List.map_cons]
      by_cases hid : e.id = idn
      · subst hid
        have hz : es.any (fun e2 => e2.id == e.id && p e2) = false := by
          cases hany : es.any (fun e2 => e2.id == e.id && p e2) with
          | false => rfl
          | true =>
            exfalso
            rcases List.any_eq_true.mp hany with ⟨x, hx, hxx⟩
            rcases Bool.and_eq_true_iff.mp hxx with ⟨hxe, _⟩
            exact hni (List.mem_map.mpr ⟨x, hx, beq_iff_eq.mp hxe⟩)
        rw [List.count_cons_self, ih hnd', hz]
        simp [hp]
      · have hne : DrawCommand.Select idn ≠ DrawCommand.Select e.id := by
          simp only [ne_eq, DrawCommand.Select.injEq]
          exact fun hh => hid hh.symm
        have hb : (e.id == idn) = false := by
          simp [hid]
        rw [List.count_cons_of_ne hne, ih hnd', hb]
        simp
    · have hpf : p e = false := by
        rwa [Bool.not_eq_true] at hp
      rw [if_neg hp, ih hnd', hpf]
      simp

theorem sceneOf_entities_ids (calls : List SquareCall) :
    (sceneOf calls).entities.map (fun e => e.id) = List.range calls.length := by
  show ((List.range calls.length).map (entityOf calls)).map (fun e => e.id) = _
  rw [List.map_map]
  have hco : ((fun e : Entity => e.id) ∘ entityOf calls) = fun k => k := funext fun k => rfl
  rw [hco]
  exact List.map_id _

/-- C5: the DrawCommand queue is empty at the start of every
`UpdateResources` step (after any number of completed frames of a
protocol-built world), and immediately after the next Selection System
run it holds exactly one `Select(id)` for each entity whose flag was set
true that frame and nothing else. -/
theorem C5_queue_lifecycle (calls : List SquareCall) (s : ElementCreator)
    (h1 : calls.length ≤ W16) (h2 : buildScene calls = some s)
    (ms : List MousePosition) (m2 : MousePosition) :
    (runFrames s ms).queue = [] ∧
    ∀ idn, ((dispatch (setMouse (runFrames s ms) m2)).queue).count (DrawCommand.Select idn) =
      if (dispatch (setMouse (runFrames s ms) m2)).entities.any
          (fun e => e.id == idn && e.selected) then 1 else 0 := by
  rcases buildScene_sceneOf calls s h1 h2 with ⟨hwf, rfl⟩
  have hqe : (runFrames (sceneOf calls) ms).queue = [] :=
    runFrames_queue_nil ms _ rfl
  refine ⟨hqe, ?_⟩
  intro idn
  have hdq : (dispatch (setMouse (runFrames (sceneOf calls) ms) m2)).queue =
      runSysCommands m2 (runFrames (sceneOf calls) ms).entities := by
    show (runFrames (sceneOf calls) ms).queue ++ _ = _
    rw [hqe, List.nil_append]
    rfl
  have hde : (dispatch (setMouse (runFrames (sceneOf calls) ms) m2)).entities =
      runSysEntities m2 (runFrames (sceneOf calls) ms).entities := rfl
  rw [hdq, hde]
  have hnd : ((runFrames (sceneOf calls) ms).entities.map (fun e => e.id)).Nodup := by
    rw [runFrames_ids ms (sceneOf calls), sceneOf_entities_ids]
    exact List.nodup_range _
  have hcount := count_select (fun e => hitTest m2 e.pos) idn
    (runFrames (sceneOf calls) ms).entities hnd
  unfold runSysCommands
  rw [hcount]
  congr 1
  unfold runSysEntities
  rw [List.any_map]
  rfl

theorem C5_queue_lifecycle_witness :
    mainCalls.length ≤ W16 ∧
    (runFrames (sceneOf mainCalls) [⟨10, 10⟩]).queue = [] ∧
    ∀ idn, ((dispatch (setMouse (runFrames (sceneOf mainCalls) [⟨10, 10⟩])
        ⟨10, 10⟩)).queue).count (DrawCommand.Select idn) =
      if (dispatch (setMouse (runFrames (sceneOf mainCalls) [⟨10, 10⟩])
          ⟨10, 10⟩)).entities.any (fun e => e.id == idn && e.selected) then 1 else 0 :=
  ⟨by decide,
    (C5_queue_lifecycle mainCalls (sceneOf mainCalls) (by decide) (by decide)
      [⟨10, 10⟩] ⟨10, 10⟩).1,
    (C5_queue_lifecycle mainCalls (sceneOf mainCalls) (by decide) (by decide)
      [⟨10, 10⟩] ⟨10, 10⟩).2⟩

/-- C8: for every scene built by the creation protocol (at most `2^16`
calls, the range in which the u16 identities keep the graph a tree), the
render traversal from index 0 terminates — some fuel suffices and any
larger fuel gives the same visit list — and the visit list enumerates
exactly the elements reachable from index 0, each exactly once; a
container with no children renders only itself. -/
theorem C8_traversal_terminates_exactly_once (calls : List SquareCall) (s : ElementCreator)
    (h1 : calls.length ≤ W16) (h2 : buildScene calls = some s) :
    ∃ V fuel, renderLoop s.ui fuel [0] = some V ∧
      (∀ g, fuel ≤ g → renderLoop s.ui g [0] = some V) ∧
      V.Nodup ∧ (∀ j, j ∈ V ↔ ReachU s.ui 0 j) ∧
      (kids s.ui 0 = [] → V = [0]) := by
  rcases buildScene_sceneOf calls s h1 h2 with ⟨hwf, rfl⟩
  rcases Nat.eq_zero_or_pos calls.length with hm | hm
  · have hcalls : calls = [] := List.length_eq_zero.mp hm
    subst hcalls
    refine ⟨[0], 2, by decide, ?_, by decide, ?_, fun _ => rfl⟩
    · intro g hg
      exact renderLoop_fuel_le hg (by decide)
    · intro j
      constructor
      · intro hj
        have hj0 : j = 0 := by simpa using hj
        subst hj0
        exact ReachU.refl 0
      · intro hr
        have hk : kids (sceneOf []).ui 0 = [] := by decide
        simp [reach_no_kids hk hr]
  · have ts := treeShape_sceneOf hwf
    have hrl := renderLoop_flatMap ts
      ((([0] : List Nat).flatMap (visitF (sceneOf calls).ui (calls.length + 1))).length + 1)
      [0] (by intro x hx; simp at hx; omega) (Nat.lt_succ_self _)
    have hflat : (([0] : List Nat).flatMap (visitF (sceneOf calls).ui (calls.length + 1))) =
        visitF (sceneOf calls).ui (calls.length + 1) 0 := by
      simp
    rw [hflat] at hrl
    refine ⟨visitF (sceneOf calls).ui (calls.length + 1) 0, _, hrl, ?_, ?_, ?_, ?_⟩
    · intro g hg
      exact renderLoop_fuel_le hg hrl
    · exact visitF_nodup ts (calls.length + 1) 0 hm
    · intro j
      constructor
      · exact fun hj => visitF_reach _ _ _ hj
      · intro hr
        exact reach_visitF ts (calls.length + 1) 0 j hm (by omega) hr
    · intro hk
      show 0 :: (kids (sceneOf calls).ui 0).reverse.flatMap _ = [0]
      rw [hk]
      rfl

theorem C8_traversal_witness :
    mainCalls.length ≤ W16 ∧
    ∃ V fuel, renderLoop (sceneOf mainCalls).ui fuel [0] = some V ∧
      (∀ g, fuel ≤ g → renderLoop (sceneOf mainCalls).ui g [0] = some V) ∧
      V.Nodup ∧ (∀ j, j ∈ V ↔ ReachU (sceneOf mainCalls).ui 0 j) ∧
      (kids (sceneOf mainCalls).ui 0 = [] → V = [0]) :=
  ⟨by decide, C8_traversal_terminates_exactly_once mainCalls (sceneOf mainCalls)
    (by decide) (by decide)⟩
